import Mathlib

/-!
Verification development for the `jdiff` JSON structural-diff tool.

The definitions below are a shallow embedding of the Rust sources:
* `src/lib.rs` — the canonical library: `compare_values`, the `Delta` type,
  the generic projector `Delta::to_value`, and the three standard filters;
* `src/main.rs` — the legacy diagnostic binary: `NodeDiff`, its `compare`
  (which treats array-vs-array as an opaque leaf), and its `main`.

JSON documents (`serde_json::Value`) are embedded as the inductive `Value`;
numbers are modelled as integers (the claims only exercise integral numbers).
`serde_json::Map` (a BTreeMap: unique, sorted keys) is embedded as an
association list; the sortedness/uniqueness invariant is the predicate `WF`.
`HashMap` (used for `Delta::Map`) is embedded as an association list whose
order is arbitrary; every theorem about it is order-insensitive or goes
through the key-sorted serialisation that `to_value` performs (it builds a
`serde_json::Map`, i.e. a BTreeMap, hence key-sorted output objects).
-/

/-- Embedding of `serde_json::Value`: null, booleans, numbers (modelled as
integers), strings, arrays and objects (association lists of key/value
pairs; parsed documents have strictly sorted, hence unique, keys). -/
inductive Value where
  | Null : Value
  | Bool (b : Bool) : Value
  | Number (n : Int) : Value
  | String (s : String) : Value
  | Array (elems : List Value) : Value
  | Object (entries : List (String × Value)) : Value
deriving Inhabited

/-- Size-based induction principle for `Value`, giving induction hypotheses
for every element of an array and every entry value of an object. -/
theorem Value.inductionOn (P : Value → Prop)
    (hnull : P .Null) (hbool : ∀ b, P (.Bool b)) (hnum : ∀ n, P (.Number n))
    (hstr : ∀ s, P (.String s))
    (harr : ∀ l, (∀ v ∈ l, P v) → P (.Array l))
    (hobj : ∀ m, (∀ p ∈ m, P p.2) → P (.Object m)) : ∀ v, P v := by
  have H : ∀ (n : Nat) (v : Value), sizeOf v ≤ n → P v := by
    intro n
    induction n with
    | zero =>
      intro v hv
      exfalso
      cases v <;> simp_arith at hv
    | succ n ihn =>
      intro v hv
      match v with
      | .Null => exact hnull
      | .Bool b => exact hbool b
      | .Number k => exact hnum k
      | .String s => exact hstr s
      | .Array l =>
        refine harr l (fun x hx => ihn x ?_)
        have := List.sizeOf_lt_of_mem hx
        simp only [Value.Array.sizeOf_spec] at hv
        omega
      | .Object m =>
        refine hobj m (fun p hp => ihn p.2 ?_)
        have h1 := List.sizeOf_lt_of_mem hp
        have h2 : sizeOf p.2 < sizeOf p := by
          obtain ⟨k, w⟩ := p
          simp only [Prod.mk.sizeOf_spec]
          omega
        simp only [Value.Object.sizeOf_spec] at hv
        omega
  exact fun v => H (sizeOf v) v le_rfl

mutual

/-- Embedding of `serde_json::Value`'s `PartialEq` (structural equality),
used by `Delta::new` (`lhs == rhs`) and by the legacy array comparison. -/
def beqValue : Value → Value → Bool
  | .Null, .Null => true
  | .Bool a, .Bool b => a == b
  | .Number a, .Number b => a == b
  | .String a, .String b => a == b
  | .Array a, .Array b => beqList a b
  | .Object a, .Object b => beqObj a b
  | _, _ => false

/-- Elementwise equality of JSON arrays. -/
def beqList : List Value → List Value → Bool
  | [], [] => true
  | x :: xs, y :: ys => beqValue x y && beqList xs ys
  | _, _ => false

/-- Entrywise equality of JSON objects (as ordered association lists; the
parsed representation is a BTreeMap, so equal maps have equal entry lists). -/
def beqObj : List (String × Value) → List (String × Value) → Bool
  | [], [] => true
  | (k, v) :: xs, (l, w) :: ys => k == l && beqValue v w && beqObj xs ys
  | _, _ => false

end

/-- The boolean equality test `beqValue` decides propositional equality. -/
theorem beqValue_iff_eq : ∀ a b : Value, beqValue a b = true ↔ a = b := by
  intro a
  induction a using Value.inductionOn with
  | hnull => intro b; cases b <;> simp [beqValue]
  | hbool x => intro b; cases b <;> simp [beqValue]
  | hnum x => intro b; cases b <;> simp [beqValue]
  | hstr x => intro b; cases b <;> simp [beqValue]
  | harr l ih =>
    intro b
    cases b with
    | Null => simp [beqValue]
    | Bool _ => simp [beqValue]
    | Number _ => simp [beqValue]
    | String _ => simp [beqValue]
    | Object _ => simp [beqValue]
    | Array l2 =>
      simp only [beqValue]
      induction l generalizing l2 with
      | nil => cases l2 <;> simp [beqList]
      | cons x xs ihl =>
        cases l2 with
        | nil => simp [beqList]
        | cons y ys =>
          simp only [beqList, Bool.and_eq_true, Value.Array.injEq, List.cons.injEq]
          rw [ihl (fun v hv => ih v (List.mem_cons_of_mem x hv)) ys]
          rw [ih x (List.mem_cons_self x xs) y]
          simp [Value.Array.injEq]
  | hobj m ih =>
    intro b
    cases b with
    | Null => simp [beqValue]
    | Bool _ => simp [beqValue]
    | Number _ => simp [beqValue]
    | String _ => simp [beqValue]
    | Array _ => simp [beqValue]
    | Object m2 =>
      simp only [beqValue]
      induction m generalizing m2 with
      | nil => cases m2 <;> simp [beqObj]
      | cons p ps ihm =>
        obtain ⟨k, v⟩ := p
        cases m2 with
        | nil => simp [beqObj]
        | cons q qs =>
          obtain ⟨l, w⟩ := q
          simp only [beqObj, Bool.and_eq_true, Value.Object.injEq, List.cons.injEq]
          rw [ihm (fun r hr => ih r (List.mem_cons_of_mem _ hr)) qs]
          have := ih (k, v) (List.mem_cons_self _ ps) w
          simp only at this
          rw [this]
          simp [Value.Object.injEq, Prod.ext_iff, and_assoc, beq_iff_eq]

instance : DecidableEq Value := fun a b =>
  decidable_of_iff (beqValue a b = true) (beqValue_iff_eq a b)

/-- Reflexivity of the embedded structural equality. -/
theorem beqValue_refl (a : Value) : beqValue a a = true :=
  (beqValue_iff_eq a a).mpr rfl

/-- Embedding of `HashMap::get`/`serde_json::Map::get`: first entry with the
given key, if any. -/
def lookupKey (k : String) : List (String × α) → Option α
  | [] => none
  | (k1, v) :: rest => if k = k1 then some v else lookupKey k rest

/-- Embedding of `Map::contains_key`. -/
def containsKey (k : String) (l : List (String × α)) : Bool :=
  (lookupKey k l).isSome

/-- A value found by `lookupKey` is structurally smaller than the entry list
(used for termination of the recursive object comparison). -/
theorem lookupKey_sizeOf {l : List (String × Value)} {k : String} {v : Value}
    (h : lookupKey k l = some v) : sizeOf v < sizeOf l := by
  induction l with
  | nil => simp [lookupKey] at h
  | cons p rest ih =>
    obtain ⟨k1, w⟩ := p
    simp only [lookupKey] at h
    by_cases hk : k = k1
    · rw [if_pos hk] at h
      have hv := Option.some.inj h
      subst hv
      simp only [List.cons.sizeOf_spec, Prod.mk.sizeOf_spec]
      omega
    · rw [if_neg hk] at h
      have := ih h
      simp only [List.cons.sizeOf_spec]
      omega

/-- Embedding of the `Delta` enum of `src/lib.rs`: the possible delta between
two JSON nodes.  `Map` entries are in first-document-then-second-document
construction order; the Rust `HashMap` is unordered, so no theorem relies on
this order except through the key-sorted serialisation in `to_value`. -/
inductive Delta where
  | Equal (v : Value) : Delta
  | DifferentContent (v1 v2 : Value) : Delta
  | DifferentVariant (v1 v2 : Value) : Delta
  | MissingInSecond (v : Value) : Delta
  | MissingInFirst (v : Value) : Delta
  | List (children : List Delta) : Delta
  | Map (entries : List (String × Delta)) : Delta

/-- Embedding of `Delta::new`: `Equal` when the two values are (deeply)
equal, `DifferentContent` otherwise. -/
def Delta.new (lhs rhs : Value) : Delta :=
  if beqValue lhs rhs then .Equal lhs else .DifferentContent lhs rhs

mutual

/-- Embedding of `compare_values` of `src/lib.rs`: compare two JSON nodes.
Same-kind scalars go through `Delta::new`; arrays are compared positionally
up to the shorter length with `MissingInSecond`/`MissingInFirst` entries for
the tail of the longer side; objects are compared by key union; any other
combination is `DifferentVariant`. -/
def compare_values : Value → Value → Delta
  | .Null, .Null => .Equal .Null
  | .Bool b1, .Bool b2 => Delta.new (.Bool b1) (.Bool b2)
  | .Number n1, .Number n2 => Delta.new (.Number n1) (.Number n2)
  | .String s1, .String s2 => Delta.new (.String s1) (.String s2)
  | .Array l1, .Array l2 =>
    .List (cmpZip l1 l2 ++
      (if l2.length < l1.length then
        (l1.drop l2.length).map Delta.MissingInSecond
      else
        (l2.drop l1.length).map Delta.MissingInFirst))
  | .Object m1, .Object m2 =>
    .Map (cmpEntries m1 m2 ++
      (m2.filter (fun p => !containsKey p.1 m1)).map
        (fun p => (p.1, Delta.MissingInFirst p.2)))
  | v1, v2 => .DifferentVariant v1 v2
termination_by v1 v2 => sizeOf v1 + sizeOf v2
decreasing_by
  all_goals simp_wf
  all_goals omega

/-- Pairwise comparison of array elements, up to the shorter length
(the `v1.iter().zip(v2.iter())` loop of `compare_values`). -/
def cmpZip : List Value → List Value → List Delta
  | v1 :: t1, v2 :: t2 => compare_values v1 v2 :: cmpZip t1 t2
  | _, _ => []
termination_by l1 l2 => sizeOf l1 + sizeOf l2
decreasing_by
  all_goals simp_wf
  all_goals omega

/-- The first loop of the object comparison: for each entry of the first
map, recurse when the key is in the second map, else `MissingInSecond`. -/
def cmpEntries : List (String × Value) → List (String × Value) → List (String × Delta)
  | [], _ => []
  | (k, v1) :: rest, m2 =>
    (match h : lookupKey k m2 with
     | some v2 => (k, compare_values v1 v2)
     | none => (k, Delta.MissingInSecond v1)) :: cmpEntries rest m2
termination_by m1 m2 => sizeOf m1 + sizeOf m2
decreasing_by
  all_goals simp_wf
  all_goals first
    | omega
    | (have hs := lookupKey_sizeOf h; omega)

end

/-- Test for the `Value::Null` pattern used by the projector's drop logic. -/
def isNull : Value → Bool
  | .Null => true
  | _ => false

/-- Insert an entry into a key-sorted association list (BTreeMap insertion
order model; keys in the projector's use are unique, so ties are immaterial). -/
def sortedInsertByKey (p : String × α) : List (String × α) → List (String × α)
  | [] => [p]
  | q :: rest => if p.1 ≤ q.1 then p :: q :: rest else q :: sortedInsertByKey p rest

/-- Key-sort an association list: the result of inserting every entry into a
`serde_json::Map` (a BTreeMap), as `Delta::to_value` does for `Delta::Map`. -/
def sortByKey : List (String × α) → List (String × α)
  | [] => []
  | p :: rest => sortedInsertByKey p (sortByKey rest)

mutual

/-- Embedding of `Delta::to_value`: apply the filter; if it yields a value,
return it verbatim; otherwise recurse into `List`/`Map` children, dropping
null projections and collapsing empty containers to null; any other Delta
kind projects to null. -/
def to_value (d : Delta) (f : Delta → Option Value) : Value :=
  match f d with
  | some val => val
  | none =>
    match d with
    | .List l =>
      let array := projList l f
      if array.isEmpty then .Null else .Array array
    | .Map m =>
      let object := sortByKey (projMap m f)
      if object.isEmpty then .Null else .Object object
    | _ => .Null
termination_by sizeOf d
decreasing_by
  all_goals simp_wf

/-- The `Delta::List` loop of `to_value`: project each child, skipping null
projections. -/
def projList : List Delta → (Delta → Option Value) → List Value
  | [], _ => []
  | d :: rest, f =>
    let diff := to_value d f
    if isNull diff then projList rest f else diff :: projList rest f
termination_by l _ => sizeOf l
decreasing_by
  all_goals simp_wf
  all_goals omega

/-- The `Delta::Map` loop of `to_value`: project each entry value, skipping
null projections (the entries are then key-sorted by the BTreeMap). -/
def projMap : List (String × Delta) → (Delta → Option Value) → List (String × Value)
  | [], _ => []
  | (k, d) :: rest, f =>
    let diff := to_value d f
    if isNull diff then projMap rest f else (k, diff) :: projMap rest f
termination_by m _ => sizeOf m
decreasing_by
  all_goals simp_wf
  all_goals omega

end

/-- Embedding of the `equal` filter of `Delta::write_equal_set`: keep the
shared value of `Equal` nodes, decline everything else. -/
def equalFilter : Delta → Option Value
  | .Equal v => some v
  | _ => none

/-- Embedding of the `delta_to_second` filter of
`Delta::write_delta_to_second_set`: differing nodes become the pair
`[v1, v2]`; values missing in the second document are kept bare. -/
def deltaToSecond : Delta → Option Value
  | .DifferentContent v1 v2 => some (.Array [v1, v2])
  | .DifferentVariant v1 v2 => some (.Array [v1, v2])
  | .MissingInSecond v => some v
  | _ => none

/-- Embedding of the `delta_to_first` filter of
`Delta::write_delta_to_first_set`: differing nodes become the reversed pair
`[v2, v1]`; values missing in the first document are kept bare. -/
def deltaToFirst : Delta → Option Value
  | .DifferentContent v1 v2 => some (.Array [v2, v1])
  | .DifferentVariant v1 v2 => some (.Array [v2, v1])
  | .MissingInFirst v => some v
  | _ => none

/-- Embedding of the `NodeDiff` enum of the legacy diagnostic binary
`src/main.rs`.  Unlike `Delta`, it has no `List` constructor: the legacy
variant never recurses into arrays. -/
inductive NodeDiff where
  | Equal (v : Value) : NodeDiff
  | DifferentContent (v1 v2 : Value) : NodeDiff
  | DifferentVariant (v1 v2 : Value) : NodeDiff
  | MissingInSecond (v : Value) : NodeDiff
  | MissingInFirst (v : Value) : NodeDiff
  | Node (entries : List (String × NodeDiff)) : NodeDiff

mutual

/-- Embedding of `compare` of `src/main.rs` (the legacy differencer); the
diagnostic printing is ignored.  Array-vs-array is an opaque leaf: whole-array
equality decides `Equal` versus `DifferentContent`, with no element recursion. -/
def legacyCompare : Value → Value → NodeDiff
  | .Null, .Null => .Equal .Null
  | .Bool b1, .Bool b2 =>
    if b1 == b2 then .Equal (.Bool b1) else .DifferentContent (.Bool b1) (.Bool b2)
  | .Number n1, .Number n2 =>
    if n1 == n2 then .Equal (.Number n1) else .DifferentContent (.Number n1) (.Number n2)
  | .String s1, .String s2 =>
    if s1 == s2 then .Equal (.String s1) else .DifferentContent (.String s1) (.String s2)
  | .Array l1, .Array l2 =>
    if beqList l1 l2 then .Equal (.Array l1) else .DifferentContent (.Array l1) (.Array l2)
  | .Object m1, .Object m2 =>
    .Node (legacyEntries m1 m2 ++
      (m2.filter (fun p => !containsKey p.1 m1)).map
        (fun p => (p.1, NodeDiff.MissingInFirst p.2)))
  | v1, v2 => .DifferentVariant v1 v2
termination_by v1 v2 => sizeOf v1 + sizeOf v2
decreasing_by
  all_goals simp_wf
  all_goals omega

/-- The first object loop of the legacy `compare`, mirroring `cmpEntries`. -/
def legacyEntries : List (String × Value) → List (String × Value) → List (String × NodeDiff)
  | [], _ => []
  | (k, v1) :: rest, m2 =>
    (match h : lookupKey k m2 with
     | some v2 => (k, legacyCompare v1 v2)
     | none => (k, NodeDiff.MissingInSecond v1)) :: legacyEntries rest m2
termination_by m1 m2 => sizeOf m1 + sizeOf m2
decreasing_by
  all_goals simp_wf
  all_goals first
    | omega
    | (have hs := lookupKey_sizeOf h; omega)

end

mutual

/-- Constructor-wise correspondence from the legacy `NodeDiff` into the
canonical `Delta` (`Node` maps to `Map`); the legacy variant "agrees" with
the canonical differencer on a pair of inputs exactly when this translation
of its result equals the canonical result. -/
def toDelta : NodeDiff → Delta
  | .Equal v => .Equal v
  | .DifferentContent v1 v2 => .DifferentContent v1 v2
  | .DifferentVariant v1 v2 => .DifferentVariant v1 v2
  | .MissingInSecond v => .MissingInSecond v
  | .MissingInFirst v => .MissingInFirst v
  | .Node m => .Map (toDeltaEntries m)
termination_by d => sizeOf d
decreasing_by
  all_goals simp_wf

/-- Entrywise translation of legacy object nodes. -/
def toDeltaEntries : List (String × NodeDiff) → List (String × Delta)
  | [] => []
  | (k, d) :: rest => (k, toDelta d) :: toDeltaEntries rest
termination_by m => sizeOf m
decreasing_by
  all_goals simp_wf
  all_goals omega

end

/-- Embedding of `Config` of `src/lib.rs`: the three path arguments. -/
structure Config where
  first_input : String
  second_input : String
  output : String
deriving DecidableEq

/-- Embedding of `Config::new`: fewer than four arguments is an error whose
message names the expected usage; otherwise the paths are `args[1..3]`. -/
def Config.new (args : List String) : Except String Config :=
  if args.length < 4 then
    .error "Invalid number of arguments: <input1> <input2> <output>"
  else
    .ok ⟨args.getD 1 "", args.getD 2 "", args.getD 3 ""⟩

/-- Outcome of running the legacy binary: normal exit (code 0) or a panic
from `unwrap` (which is not an orderly exit-1 with a usage message). -/
inductive MainResult where
  | ok : MainResult
  | panicked : MainResult
deriving DecidableEq

/-- Embedding of `main` of `src/main.rs` over a file-system model mapping a
path to its parsed document (or `none` when opening/parsing fails): the
command-line arguments are never inspected; the two hard-coded paths are
read and `unwrap`ped, then the legacy diff is printed and the program
finishes normally. -/
def mainLegacy (args : List String) (fs : String → Option Value) : MainResult :=
  let lhs := fs "data/user1.json"
  let rhs := fs "data/user2.json"
  let _ := args
  match lhs, rhs with
  | some _, some _ => .ok
  | _, _ => .panicked

/-- Embedding of `run` of `src/lib.rs` over the same file-system model plus
a set of writable output paths: parse both inputs, then write the three
projections in order, failing fast at the first unwritable output. -/
def runConfig (config : Config) (fs : String → Option Value)
    (writable : String → Bool) : Except String Unit := do
  let some _val1 := fs config.first_input | .error "parse"
  let some _val2 := fs config.second_input | .error "parse"
  if !writable (config.output ++ "_eq.json") then .error "write"
  else if !writable (config.output ++ "_diff_ab.json") then .error "write"
  else if !writable (config.output ++ "_diff_ba.json") then .error "write"
  else .ok ()

/-- Discriminant of the six JSON node kinds; two nodes are "the same
variant" exactly when their tags agree. -/
def variantTag : Value → Nat
  | .Null => 0
  | .Bool _ => 1
  | .Number _ => 2
  | .String _ => 3
  | .Array _ => 4
  | .Object _ => 5

/-- Scalar node kinds: null, boolean, number, string. -/
def isScalar : Value → Bool
  | .Null => true
  | .Bool _ => true
  | .Number _ => true
  | .String _ => true
  | .Array _ => false
  | .Object _ => false

/-- Leaf kinds of `Delta`: everything except `List` and `Map`. -/
def isLeafKind : Delta → Bool
  | .List _ => false
  | .Map _ => false
  | _ => true

mutual

/-- A Delta is all-`Equal` when every leaf reachable through `List`/`Map`
structure is an `Equal` node. -/
def allEqualB : Delta → Bool
  | .Equal _ => true
  | .List l => allEqualList l
  | .Map m => allEqualMap m
  | _ => false
termination_by d => sizeOf d
decreasing_by
  all_goals simp_wf
  all_goals omega

/-- All-`Equal` check for list children. -/
def allEqualList : List Delta → Bool
  | [] => true
  | d :: rest => allEqualB d && allEqualList rest
termination_by l => sizeOf l
decreasing_by
  all_goals simp_wf
  all_goals omega

/-- All-`Equal` check for map entries. -/
def allEqualMap : List (String × Delta) → Bool
  | [] => true
  | (_, d) :: rest => allEqualB d && allEqualMap rest
termination_by m => sizeOf m
decreasing_by
  all_goals simp_wf
  all_goals omega

end

mutual

/-- Drop null elements/member values from containers (recursively) and
collapse containers thereby (or originally) empty to null.  The equal-set
projection of `compare_values D D` computes exactly `pruneNulls D`; it equals
`D` itself exactly when `D` has no empty containers and no nulls inside
containers. -/
def pruneNulls : Value → Value
  | .Array l =>
    let ys := pruneList l
    if ys.isEmpty then .Null else .Array ys
  | .Object m =>
    let es := pruneObj m
    if es.isEmpty then .Null else .Object es
  | v => v
termination_by v => sizeOf v
decreasing_by
  all_goals simp_wf

/-- Prune a list of array elements. -/
def pruneList : List Value → List Value
  | [] => []
  | v :: rest =>
    let w := pruneNulls v
    if isNull w then pruneList rest else w :: pruneList rest
termination_by l => sizeOf l
decreasing_by
  all_goals simp_wf
  all_goals omega

/-- Prune a list of object entries. -/
def pruneObj : List (String × Value) → List (String × Value)
  | [] => []
  | (k, v) :: rest =>
    let w := pruneNulls v
    if isNull w then pruneObj rest else (k, w) :: pruneObj rest
termination_by m => sizeOf m
decreasing_by
  all_goals simp_wf
  all_goals omega

end

/-- Well-formedness of a parsed document: object keys are strictly sorted
(the `serde_json::Map`/BTreeMap invariant), recursively.  In particular the
keys of every object are distinct. -/
inductive WF : Value → Prop where
  | null : WF .Null
  | bool (b : Bool) : WF (.Bool b)
  | num (n : Int) : WF (.Number n)
  | str (s : String) : WF (.String s)
  | arr (l : List Value) : (∀ v ∈ l, WF v) → WF (.Array l)
  | obj (m : List (String × Value)) :
      m.Pairwise (fun p q => p.1 < q.1) → (∀ p ∈ m, WF p.2) → WF (.Object m)

/-- Swap the two elements of a top-level 2-element pair, as the antisymmetry
claim prescribes for a projection that consists of a single difference pair. -/
def swapTopPair : Value → Value
  | .Array [x, y] => .Array [y, x]
  | v => v

/-- The zip loop of the array comparison is the elementwise comparison of
the positionally paired elements. -/
theorem cmpZip_eq (l1 l2 : List Value) :
    cmpZip l1 l2 = (l1.zip l2).map (fun p => compare_values p.1 p.2) := by
  induction l1 generalizing l2 with
  | nil => cases l2 <;> simp [cmpZip]
  | cons x xs ih =>
    cases l2 with
    | nil => simp [cmpZip]
    | cons y ys => simp [cmpZip, ih]

/-- Lookup distributes over list append, preferring the first list. -/
theorem lookupKey_append (k : String) (l1 l2 : List (String × α)) :
    lookupKey k (l1 ++ l2) =
      match lookupKey k l1 with
      | some v => some v
      | none => lookupKey k l2 := by
  induction l1 with
  | nil => simp [lookupKey]
  | cons p rest ih =>
    obtain ⟨k1, v⟩ := p
    by_cases hk : k = k1 <;> simp [lookupKey, hk, ih]

/-- Lookup in the first object loop's output: the transform of the lookup in
the first map. -/
theorem lookupKey_cmpEntries (m1 m2 : List (String × Value)) (k : String) :
    lookupKey k (cmpEntries m1 m2) =
      match lookupKey k m1 with
      | some v1 =>
        some (match lookupKey k m2 with
              | some v2 => compare_values v1 v2
              | none => .MissingInSecond v1)
      | none => none := by
  induction m1 with
  | nil => simp [cmpEntries, lookupKey]
  | cons p rest ih =>
    obtain ⟨k1, v1⟩ := p
    rw [cmpEntries]
    by_cases hk : k = k1
    · subst hk
      cases h2 : lookupKey k m2 <;> simp [lookupKey, h2]
    · cases h2 : lookupKey k1 m2 <;> simp [lookupKey, hk, h2, ih]

/-- Lookup in the second object loop's output (`MissingInFirst` entries for
keys absent from the first map). -/
theorem lookupKey_missingInFirst (m1 m2 : List (String × Value)) (k : String) :
    lookupKey k ((m2.filter (fun p => !containsKey p.1 m1)).map
        (fun p => (p.1, Delta.MissingInFirst p.2))) =
      if containsKey k m1 then none
      else (lookupKey k m2).map Delta.MissingInFirst := by
  induction m2 with
  | nil => simp [lookupKey]
  | cons p rest ih =>
    obtain ⟨k2, v2⟩ := p
    by_cases hk : k = k2
    · subst hk
      cases hc : containsKey k m1 <;> simp [List.filter_cons, hc, lookupKey, ih]
    · cases hc2 : containsKey k2 m1 <;> simp [List.filter_cons, hc2, lookupKey, hk, ih]

/-- C3: Map key-union completeness.  The key set of the `Map` Delta produced
for two object nodes is exactly the union of the two key sets; a key only in
the first map yields `MissingInSecond`, a key only in the second yields
`MissingInFirst`, and a key in both yields the recursive comparison. -/
theorem map_key_union (m1 m2 : List (String × Value)) (k : String) :
    ∃ es, compare_values (.Object m1) (.Object m2) = .Map es ∧
      lookupKey k es =
        (match lookupKey k m1, lookupKey k m2 with
         | some v1, some v2 => some (compare_values v1 v2)
         | some v1, none => some (.MissingInSecond v1)
         | none, some v2 => some (.MissingInFirst v2)
         | none, none => none) ∧
      containsKey k es = (containsKey k m1 || containsKey k m2) := by
  refine ⟨_, by rw [compare_values], ?_, ?_⟩
  · rw [lookupKey_append, lookupKey_cmpEntries, lookupKey_missingInFirst]
    cases h1 : lookupKey k m1 <;> cases h2 : lookupKey k m2 <;>
      simp [containsKey, h1, h2]
  · rw [containsKey, lookupKey_append, lookupKey_cmpEntries, lookupKey_missingInFirst]
    cases h1 : lookupKey k m1 <;> cases h2 : lookupKey k m2 <;>
      simp [containsKey, h1, h2]

/-- C2: positional list semantics.  Two list nodes are compared elementwise
in index order up to the shorter length, with exactly one
`MissingInSecond`/`MissingInFirst` entry per surplus index of the longer
side; on `[1,2,3]` versus `[1,9]` this gives Equal / DifferentContent(2,9) /
MissingInSecond(3), whose diff-to-second projection is `[[2,9],3]` and whose
diff-to-first projection is `[[9,2]]`. -/
theorem positional_list_semantics :
    (∀ l1 l2 : List Value, compare_values (.Array l1) (.Array l2) =
      .List ((l1.zip l2).map (fun p => compare_values p.1 p.2) ++
        (if l2.length < l1.length then
          (l1.drop l2.length).map Delta.MissingInSecond
         else
          (l2.drop l1.length).map Delta.MissingInFirst))) ∧
    compare_values (.Array [.Number 1, .Number 2, .Number 3])
        (.Array [.Number 1, .Number 9]) =
      .List [.Equal (.Number 1), .DifferentContent (.Number 2) (.Number 9),
        .MissingInSecond (.Number 3)] ∧
    to_value (compare_values (.Array [.Number 1, .Number 2, .Number 3])
        (.Array [.Number 1, .Number 9])) deltaToSecond =
      .Array [.Array [.Number 2, .Number 9], .Number 3] ∧
    to_value (compare_values (.Array [.Number 1, .Number 2, .Number 3])
        (.Array [.Number 1, .Number 9])) deltaToFirst =
      .Array [.Array [.Number 9, .Number 2]] := by
  refine ⟨fun l1 l2 => ?_, ?_, ?_, ?_⟩
  · rw [compare_values, cmpZip_eq]
  · simp [compare_values, cmpZip, Delta.new, beqValue]
  · simp [compare_values, cmpZip, Delta.new, beqValue, to_value, projList,
      deltaToSecond, isNull]
  · simp [compare_values, cmpZip, Delta.new, beqValue, to_value, projList,
      deltaToFirst, isNull]

/-- C8: totality of the differencer.  `compare_values` is a total function
(its very definition in this file is a terminating recursion over all pairs
of node kinds), and a structural mismatch is itself a valid outcome: the
result is `DifferentVariant a b` exactly when the two node kinds differ. -/
theorem compare_total_differentVariant (a b : Value) :
    compare_values a b = .DifferentVariant a b ↔ variantTag a ≠ variantTag b := by
  cases a <;> cases b <;>
    simp only [compare_values, variantTag, Delta.new] <;>
    first
      | (split <;> simp)
      | simp

/-- C10: `Equal` arises only at scalar positions (and records the shared
node); two array nodes always produce a `List` Delta and two object nodes
always a `Map` Delta, even when deeply equal — in particular two empty
arrays give the childless `List` and two empty objects the childless `Map`,
never a top-level `Equal`. -/
theorem equal_only_at_scalars :
    (∀ a b v : Value, compare_values a b = .Equal v →
      isScalar a = true ∧ b = a ∧ v = a) ∧
    (∀ l1 l2 : List Value, ∃ ds, compare_values (.Array l1) (.Array l2) = .List ds) ∧
    (∀ m1 m2 : List (String × Value), ∃ es,
      compare_values (.Object m1) (.Object m2) = .Map es) ∧
    compare_values (.Array []) (.Array []) = .List [] ∧
    compare_values (.Object []) (.Object []) = .Map [] := by
  refine ⟨?_, fun l1 l2 => ⟨_, by rw [compare_values]⟩,
    fun m1 m2 => ⟨_, by rw [compare_values]⟩, ?_, ?_⟩
  · intro a b v h
    cases a <;> cases b <;>
      simp only [compare_values, Delta.new] at h <;>
      first
        | (split at h <;> simp_all [beqValue_iff_eq, isScalar])
        | simp_all [isScalar]
  · simp [compare_values, cmpZip]
  · simp [compare_values, cmpEntries]

/-- Witness for `equal_only_at_scalars`: instantiating the scalar-only
clause at the comparison of the number 3 with itself. -/
theorem equal_only_at_scalars_witness :
    isScalar (Value.Number 3) = true ∧ Value.Number 3 = Value.Number 3 ∧
      Value.Number 3 = Value.Number 3 :=
  equal_only_at_scalars.1 (Value.Number 3) (Value.Number 3) (Value.Number 3)
    (by simp [compare_values, Delta.new, beqValue])

/-- C4 (amended): the canonical `compare_values` recurses into list pairs
positionally, but the legacy diagnostic differencer of `src/main.rs` treats
an array-vs-array match as an opaque leaf — whole-array equality decides
`Equal` or `DifferentContent`, with no element recursion — and therefore
never agrees with the canonical result on any pair of list inputs. -/
theorem legacy_array_opaque (l1 l2 : List Value) :
    legacyCompare (.Array l1) (.Array l2) =
      (if beqList l1 l2 then NodeDiff.Equal (.Array l1)
       else NodeDiff.DifferentContent (.Array l1) (.Array l2)) ∧
    (∃ ds, compare_values (.Array l1) (.Array l2) = .List ds) ∧
    toDelta (legacyCompare (.Array l1) (.Array l2)) ≠
      compare_values (.Array l1) (.Array l2) := by
  refine ⟨by rw [legacyCompare], ⟨_, by rw [compare_values]⟩, ?_⟩
  rw [legacyCompare, compare_values]
  split <;> simp [toDelta]

/-- Counterexample to C4 as stated: on the list inputs `[1]` and `[2]` the
legacy differencer returns an opaque `DifferentContent` of the two whole
arrays, while the canonical differencer returns the elementwise `List`
Delta; their results do not agree. -/
theorem legacy_array_opaque_cex :
    legacyCompare (.Array [.Number 1]) (.Array [.Number 2]) =
      NodeDiff.DifferentContent (.Array [.Number 1]) (.Array [.Number 2]) ∧
    compare_values (.Array [.Number 1]) (.Array [.Number 2]) =
      .List [.DifferentContent (.Number 1) (.Number 2)] ∧
    toDelta (legacyCompare (.Array [.Number 1]) (.Array [.Number 2])) ≠
      compare_values (.Array [.Number 1]) (.Array [.Number 2]) := by
  refine ⟨?_, ?_, ?_⟩ <;>
    simp [legacyCompare, compare_values, cmpZip, Delta.new, beqValue, beqList, toDelta]

/-- C7: the library's argument parser rejects an argument list with fewer
than four entries with a message naming the expected usage, but the binary's
`main` never inspects its arguments at all: with the hard-coded data files
readable it runs to a normal exit even though the argument count is wrong,
and its behaviour is independent of the argument vector. -/
theorem cli_args_ignored :
    Config.new ["jdiff"] =
      .error "Invalid number of arguments: <input1> <input2> <output>" ∧
    mainLegacy ["jdiff"] (fun _ => some .Null) = .ok ∧
    (∀ (args args' : List String) (fs : String → Option Value),
      mainLegacy args fs = mainLegacy args' fs) :=
  ⟨rfl, rfl, fun _ _ _ => rfl⟩

/-- The file-output pipeline of the library (`run`) fails exactly when an
input fails to open/parse or an output cannot be written. -/
theorem runConfig_ok_iff (c : Config) (fs : String → Option Value)
    (w : String → Bool) :
    runConfig c fs w = .ok () ↔
      (fs c.first_input).isSome ∧ (fs c.second_input).isSome ∧
      w (c.output ++ "_eq.json") = true ∧ w (c.output ++ "_diff_ab.json") = true ∧
      w (c.output ++ "_diff_ba.json") = true := by
  cases h1 : fs c.first_input <;> cases h2 : fs c.second_input <;>
    simp [runConfig, h1, h2] <;>
    cases hw1 : w (c.output ++ "_eq.json") <;>
    cases hw2 : w (c.output ++ "_diff_ab.json") <;>
    cases hw3 : w (c.output ++ "_diff_ba.json") <;>
    simp [hw1, hw2, hw3]

/-- A value returned by the filter is used verbatim, with no recursion. -/
theorem to_value_some {d : Delta} {f : Delta → Option Value} {v : Value}
    (h : f d = some v) : to_value d f = v := by
  cases d with
  | List l => rw [to_value.eq_1, h]
  | Map m => rw [to_value.eq_2, h]
  | Equal w => rw [to_value.eq_3 _ _ (by simp) (by simp), h]
  | DifferentContent w1 w2 => rw [to_value.eq_3 _ _ (by simp) (by simp), h]
  | DifferentVariant w1 w2 => rw [to_value.eq_3 _ _ (by simp) (by simp), h]
  | MissingInSecond w => rw [to_value.eq_3 _ _ (by simp) (by simp), h]
  | MissingInFirst w => rw [to_value.eq_3 _ _ (by simp) (by simp), h]

/-- Unfolding of the projector on a declined `List` node. -/
theorem to_value_list {l : List Delta} {f : Delta → Option Value}
    (h : f (.List l) = none) :
    to_value (.List l) f =
      if (projList l f).isEmpty then .Null else .Array (projList l f) := by
  rw [to_value.eq_1, h]

/-- Unfolding of the projector on a declined `Map` node. -/
theorem to_value_map {m : List (String × Delta)} {f : Delta → Option Value}
    (h : f (.Map m) = none) :
    to_value (.Map m) f =
      if (sortByKey (projMap m f)).isEmpty then .Null
      else .Object (sortByKey (projMap m f)) := by
  rw [to_value.eq_2, h]

/-- A declined leaf-kind Delta projects to null. -/
theorem to_value_leaf {d : Delta} {f : Delta → Option Value}
    (h : f d = none) (hleaf : isLeafKind d = true) : to_value d f = .Null := by
  cases d with
  | List l => simp [isLeafKind] at hleaf
  | Map m => simp [isLeafKind] at hleaf
  | Equal w => rw [to_value.eq_3 _ _ (by simp) (by simp), h]
  | DifferentContent w1 w2 => rw [to_value.eq_3 _ _ (by simp) (by simp), h]
  | DifferentVariant w1 w2 => rw [to_value.eq_3 _ _ (by simp) (by simp), h]
  | MissingInSecond w => rw [to_value.eq_3 _ _ (by simp) (by simp), h]
  | MissingInFirst w => rw [to_value.eq_3 _ _ (by simp) (by simp), h]

/-- The `List` loop of the projector is map-then-drop-nulls. -/
theorem projList_eq (l : List Delta) (f : Delta → Option Value) :
    projList l f = (l.map (fun d => to_value d f)).filter (fun v => !isNull v) := by
  induction l with
  | nil => simp [projList]
  | cons d rest ih =>
    rw [projList]
    cases h : isNull (to_value d f) <;> simp [h, ih, List.filter_cons]

/-- The `Map` loop of the projector is map-then-drop-null-values. -/
theorem projMap_eq (m : List (String × Delta)) (f : Delta → Option Value) :
    projMap m f =
      (m.map (fun p => (p.1, to_value p.2 f))).filter (fun p => !isNull p.2) := by
  induction m with
  | nil => simp [projMap]
  | cons p rest ih =>
    obtain ⟨k, d⟩ := p
    rw [projMap]
    cases h : isNull (to_value d f) <;> simp [h, ih, List.filter_cons]

/-- Nothing the projector keeps in a list is null. -/
theorem projList_no_null (l : List Delta) (f : Delta → Option Value) :
    ∀ x ∈ projList l f, isNull x = false := by
  induction l with
  | nil => simp [projList]
  | cons d rest ih =>
    rw [projList]
    cases h : isNull (to_value d f) with
    | true => simpa [h] using ih
    | false =>
      simp only [h, if_neg Bool.false_ne_true, List.mem_cons]
      rintro x (rfl | hx)
      · exact h
      · exact ih x hx

/-- Nothing the projector keeps in a map has a null value. -/
theorem projMap_no_null (m : List (String × Delta)) (f : Delta → Option Value) :
    ∀ p ∈ projMap m f, isNull p.2 = false := by
  induction m with
  | nil => simp [projMap]
  | cons q rest ih =>
    obtain ⟨k, d⟩ := q
    rw [projMap]
    cases h : isNull (to_value d f) with
    | true => simpa [h] using ih
    | false =>
      simp only [h, if_neg Bool.false_ne_true, List.mem_cons]
      rintro p (rfl | hp)
      · exact h
      · exact ih p hp

/-- Membership is preserved by sorted insertion. -/
theorem mem_sortedInsertByKey (p q : String × α) (l : List (String × α)) :
    q ∈ sortedInsertByKey p l ↔ q = p ∨ q ∈ l := by
  induction l with
  | nil => simp [sortedInsertByKey]
  | cons r rest ih =>
    rw [sortedInsertByKey]
    split <;> simp [ih] <;> tauto

/-- Membership is preserved by key-sorting. -/
theorem mem_sortByKey (q : String × α) (l : List (String × α)) :
    q ∈ sortByKey l ↔ q ∈ l := by
  induction l with
  | nil => simp [sortByKey]
  | cons p rest ih => rw [sortByKey]; simp [mem_sortedInsertByKey, ih]

/-- C5 (amended): projector fold contract.  A value returned by the filter
is used verbatim with no recursion; "absent" is represented as the document
null (not as a result distinct from every document value), so a child whose
projection is null is dropped from `List`/`Map` containers whether the
filter declined or itself returned null; a declined `List` (resp. `Map`)
projects its children recursively, drops null projections (omitting their
keys), collapses to null when nothing remains, and a declined leaf-kind
Delta projects to null. -/
theorem projector_fold_contract :
    (∀ (d : Delta) (f : Delta → Option Value) (v : Value),
      f d = some v → to_value d f = v) ∧
    (∀ (l : List Delta) (f : Delta → Option Value), f (.List l) = none →
      to_value (.List l) f =
        (let a := (l.map (fun d => to_value d f)).filter (fun v => !isNull v)
         if a.isEmpty then .Null else .Array a)) ∧
    (∀ (m : List (String × Delta)) (f : Delta → Option Value), f (.Map m) = none →
      to_value (.Map m) f =
        (let es := sortByKey ((m.map (fun p => (p.1, to_value p.2 f))).filter
            (fun p => !isNull p.2))
         if es.isEmpty then .Null else .Object es)) ∧
    (∀ (d : Delta) (f : Delta → Option Value),
      f d = none → isLeafKind d = true → to_value d f = .Null) := by
  refine ⟨fun d f v h => to_value_some h, fun l f h => ?_, fun m f h => ?_,
    fun d f h hleaf => to_value_leaf h hleaf⟩
  · rw [to_value_list h, projList_eq]
  · rw [to_value_map h, projMap_eq]

/-- Witness for `projector_fold_contract`, instantiating each clause at a
concrete filter and Delta. -/
theorem projector_fold_contract_witness :
    to_value (.Equal (.Number 1)) equalFilter = .Number 1 ∧
    to_value (.List []) equalFilter = .Null ∧
    to_value (.Map []) equalFilter = .Null ∧
    to_value (.MissingInFirst (.Number 1)) deltaToSecond = .Null := by
  refine ⟨projector_fold_contract.1 _ equalFilter _ rfl, ?_, ?_, ?_⟩
  · rw [projector_fold_contract.2.1 [] equalFilter rfl]
    simp
  · rw [projector_fold_contract.2.2.1 [] equalFilter rfl]
    simp [sortByKey]
  · exact projector_fold_contract.2.2.2 _ deltaToSecond rfl rfl

/-- Counterexample to C5 as stated: "absent" is not distinct from the
concrete document null.  For the one-child list Delta `[Equal null]` the
equal-set filter returns the concrete node `null` for the child, yet the
child is dropped and the whole projection collapses to null instead of
being the one-element sequence `[null]`. -/
theorem projector_absent_cex :
    equalFilter (.Equal .Null) = some Value.Null ∧
    to_value (.List [.Equal .Null]) equalFilter = Value.Null ∧
    Value.Null ≠ Value.Array [Value.Null] := by
  refine ⟨rfl, ?_, by simp⟩
  rw [projector_fold_contract.2.1 _ equalFilter rfl]
  simp [to_value_some (show equalFilter (.Equal .Null) = some Value.Null from rfl), isNull]

/-- C9: containers built by the projector itself (when the filter declines)
are never empty and never contain null elements or null member values: null
child projections are dropped, and a container left empty collapses to the
absent (null) result instead of being emitted empty. -/
theorem projector_built_containers :
    (∀ (l : List Delta) (f : Delta → Option Value), f (.List l) = none →
      ∀ xs, to_value (.List l) f = .Array xs →
        xs ≠ [] ∧ ∀ x ∈ xs, x ≠ Value.Null) ∧
    (∀ (m : List (String × Delta)) (f : Delta → Option Value), f (.Map m) = none →
      ∀ es, to_value (.Map m) f = .Object es →
        es ≠ [] ∧ ∀ p ∈ es, p.2 ≠ Value.Null) ∧
    (∀ (l : List Delta) (f : Delta → Option Value), f (.List l) = none →
      projList l f = [] → to_value (.List l) f = .Null) ∧
    (∀ (m : List (String × Delta)) (f : Delta → Option Value), f (.Map m) = none →
      projMap m f = [] → to_value (.Map m) f = .Null) := by
  refine ⟨fun l f h xs hx => ?_, fun m f h es he => ?_,
    fun l f h hnil => ?_, fun m f h hnil => ?_⟩
  · rw [to_value_list h] at hx
    split at hx
    · cases hx
    · rename_i hne
      cases hx
      refine ⟨by simpa [List.isEmpty_iff] using hne, fun x hx2 => ?_⟩
      have := projList_no_null l f x hx2
      cases x <;> simp_all [isNull]
  · rw [to_value_map h] at he
    split at he
    · cases he
    · rename_i hne
      cases he
      refine ⟨by simpa [List.isEmpty_iff] using hne, fun p hp => ?_⟩
      have hp2 := (mem_sortByKey p _).mp hp
      have := projMap_no_null m f p hp2
      cases hv : p.2 <;> simp_all [isNull]
  · rw [to_value_list h, hnil]
    simp
  · rw [to_value_map h, hnil]
    simp [sortByKey]

/-- Witness for `projector_built_containers`: the diff-to-second projection
of the `List` Delta for `[1,2,3]` vs `[1,9]` is a non-empty, null-free
array, and the all-`Equal` list Delta collapses to null. -/
theorem projector_built_containers_witness :
    ([Value.Array [Value.Number 2, Value.Number 9], Value.Number 3] ≠ [] ∧
      ∀ x ∈ [Value.Array [Value.Number 2, Value.Number 9], Value.Number 3],
        x ≠ Value.Null) ∧
    to_value (.List [.Equal (.Number 1)]) deltaToSecond = Value.Null := by
  constructor
  · refine projector_built_containers.1
      [.Equal (.Number 1), .DifferentContent (.Number 2) (.Number 9),
        .MissingInSecond (.Number 3)] deltaToSecond rfl _ ?_
    simp [to_value, projList, deltaToSecond, isNull]
  · refine projector_built_containers.2.2.1 _ deltaToSecond rfl ?_
    simp [projList, to_value, deltaToSecond, isNull]

/-- Comparing a list with itself compares every element with itself. -/
theorem cmpZip_self (l : List Value) :
    cmpZip l l = l.map (fun x => compare_values x x) := by
  induction l with
  | nil => simp [cmpZip]
  | cons x xs ih => simp [cmpZip, ih]

/-- The array-vs-array comparison of a list with itself has no missing
entries. -/
theorem compare_self_arr (l : List Value) :
    compare_values (.Array l) (.Array l) =
      .List (l.map (fun x => compare_values x x)) := by
  rw [compare_values, cmpZip_self]
  simp

/-- A member's key is contained in its own map. -/
theorem containsKey_of_mem {m : List (String × α)} {p : String × α}
    (hp : p ∈ m) : containsKey p.1 m = true := by
  induction m with
  | nil => cases hp
  | cons q rest ih =>
    rcases List.mem_cons.mp hp with rfl | hp2
    · simp [containsKey, lookupKey]
    · obtain ⟨k1, v1⟩ := q
      by_cases hk : p.1 = k1 <;> simp [containsKey, lookupKey, hk] at ih ⊢ <;>
        exact ih hp2

/-- In a map with pairwise-distinct keys, looking up a member's key finds
that member's value. -/
theorem lookupKey_self {m : List (String × α)}
    (hnd : m.Pairwise (fun p q => p.1 ≠ q.1)) :
    ∀ p ∈ m, lookupKey p.1 m = some p.2 := by
  induction m with
  | nil => simp
  | cons q rest ih =>
    intro p hp
    rcases List.mem_cons.mp hp with rfl | hp2
    · obtain ⟨k, v⟩ := p
      simp [lookupKey]
    · have hne : q.1 ≠ p.1 := (List.pairwise_cons.mp hnd).1 p hp2
      obtain ⟨k1, v1⟩ := q
      rw [lookupKey, if_neg (fun hkk => hne hkk.symm)]
      exact ih (List.pairwise_cons.mp hnd).2 p hp2

/-- When every entry of the traversed list looks itself up in the second
map, the first object loop is an entrywise self-comparison. -/
theorem cmpEntries_self {m : List (String × Value)} :
    ∀ l : List (String × Value), (∀ p ∈ l, lookupKey p.1 m = some p.2) →
      cmpEntries l m = l.map (fun p => (p.1, compare_values p.2 p.2)) := by
  intro l hl
  induction l with
  | nil => rw [cmpEntries]; rfl
  | cons p rest ih =>
    obtain ⟨k, v⟩ := p
    rw [cmpEntries]
    have hk := hl (k, v) (List.mem_cons_self _ _)
    simp only at hk
    rw [ih (fun q hq => hl q (List.mem_cons_of_mem _ hq))]
    congr 1
    split
    · rename_i v2 heq
      rw [hk] at heq
      cases Option.some.inj heq
      rfl
    · rename_i heq
      rw [hk] at heq
      cases heq

/-- The object-vs-object comparison of a well-formed map with itself is the
entrywise self-comparison (no missing entries on either side). -/
theorem compare_self_obj {m : List (String × Value)}
    (hnd : m.Pairwise (fun p q => p.1 ≠ q.1)) :
    compare_values (.Object m) (.Object m) =
      .Map (m.map (fun p => (p.1, compare_values p.2 p.2))) := by
  rw [compare_values, cmpEntries_self m (lookupKey_self hnd)]
  have hfil : m.filter (fun p => !containsKey p.1 m) = [] :=
    List.filter_eq_nil_iff.mpr (fun p hp => by simp [containsKey_of_mem hp])
  rw [hfil]
  simp

/-- Boolean all-`Equal` over a list of children. -/
theorem allEqualList_eq (ds : List Delta) : allEqualList ds = ds.all allEqualB := by
  induction ds with
  | nil => rw [allEqualList]; rfl
  | cons d rest ih => rw [allEqualList, ih]; rfl

/-- Boolean all-`Equal` over map entries. -/
theorem allEqualMap_eq (ms : List (String × Delta)) :
    allEqualMap ms = ms.all (fun p => allEqualB p.2) := by
  induction ms with
  | nil => rw [allEqualMap]; rfl
  | cons p rest ih =>
    obtain ⟨k, d⟩ := p
    rw [allEqualMap, ih]
    rfl

/-- Inserting an entry whose key is a lower bound of a list prepends it. -/
theorem sortedInsert_of_le {p : String × α} {l : List (String × α)}
    (h : ∀ q ∈ l, p.1 ≤ q.1) : sortedInsertByKey p l = p :: l := by
  cases l with
  | nil => rw [sortedInsertByKey]
  | cons q rest =>
    rw [sortedInsertByKey, if_pos (h q (List.mem_cons_self _ _))]

/-- Key-sorting a list already sorted by key leaves it unchanged. -/
theorem sortByKey_sorted_id {l : List (String × α)}
    (h : l.Pairwise (fun p q => p.1 ≤ q.1)) : sortByKey l = l := by
  induction l with
  | nil => rw [sortByKey]
  | cons p rest ih =>
    rw [sortByKey, ih (List.pairwise_cons.mp h).2,
      sortedInsert_of_le (List.pairwise_cons.mp h).1]

/-- Every entry kept by `pruneObj` has the key of some original entry. -/
theorem mem_pruneObj_key {m : List (String × Value)} {q : String × Value}
    (hq : q ∈ pruneObj m) : ∃ r ∈ m, q.1 = r.1 := by
  induction m with
  | nil => rw [pruneObj] at hq; cases hq
  | cons p rest ih =>
    obtain ⟨k, v⟩ := p
    rw [pruneObj] at hq
    split at hq
    · obtain ⟨r, hr, hk⟩ := ih hq
      exact ⟨r, List.mem_cons_of_mem _ hr, hk⟩
    · rcases List.mem_cons.mp hq with rfl | hq2
      · exact ⟨(k, v), List.mem_cons_self _ _, rfl⟩
      · obtain ⟨r, hr, hk⟩ := ih hq2
        exact ⟨r, List.mem_cons_of_mem _ hr, hk⟩

/-- Pruning preserves strict key-sortedness of object entries. -/
theorem pruneObj_pairwise {m : List (String × Value)}
    (h : m.Pairwise (fun p q => p.1 < q.1)) :
    (pruneObj m).Pairwise (fun p q => p.1 < q.1) := by
  induction m with
  | nil => rw [pruneObj]; exact List.Pairwise.nil
  | cons p rest ih =>
    obtain ⟨k, v⟩ := p
    obtain ⟨hhead, htail⟩ := List.pairwise_cons.mp h
    rw [pruneObj]
    split
    · exact ih htail
    · refine List.pairwise_cons.mpr ⟨fun q hq => ?_, ih htail⟩
      obtain ⟨r, hr, hk⟩ := mem_pruneObj_key hq
      simpa [hk] using hhead r hr

/-- Projecting a list all of whose children project to null yields nothing. -/
theorem projList_all_null {f : Delta → Option Value} :
    ∀ ds : List Delta, (∀ d ∈ ds, to_value d f = .Null) → projList ds f = [] := by
  intro ds hds
  induction ds with
  | nil => rw [projList]
  | cons d rest ih =>
    rw [projList, hds d (List.mem_cons_self _ _)]
    exact ih (fun d2 hd2 => hds d2 (List.mem_cons_of_mem _ hd2))

/-- Projecting a map all of whose entry values project to null yields
nothing. -/
theorem projMap_all_null {f : Delta → Option Value} :
    ∀ ms : List (String × Delta), (∀ p ∈ ms, to_value p.2 f = .Null) →
      projMap ms f = [] := by
  intro ms hms
  induction ms with
  | nil => rw [projMap]
  | cons p rest ih =>
    obtain ⟨k, d⟩ := p
    rw [projMap]
    have := hms (k, d) (List.mem_cons_self _ _)
    simp only at this
    rw [this]
    exact ih (fun q hq => hms q (List.mem_cons_of_mem _ hq))

/-- C1 (amended): reflexivity.  For every well-formed document D,
`compare_values D D` is `Equal` (recursively all-`Equal`) at every position
and both diff projections render as the document-level null; the equal-set
projection reproduces D with null container elements/members dropped and
containers thereby (or originally) empty collapsed to null (`pruneNulls D`)
— in particular it reproduces D exactly whenever D has no empty containers
and no nulls inside containers. -/
theorem reflexivity_pruned (v : Value) (hwf : WF v) :
    allEqualB (compare_values v v) = true ∧
    to_value (compare_values v v) equalFilter = pruneNulls v ∧
    to_value (compare_values v v) deltaToSecond = Value.Null ∧
    to_value (compare_values v v) deltaToFirst = Value.Null := by
  revert hwf
  induction v using Value.inductionOn with
  | hnull =>
    intro _
    refine ⟨?_, ?_, ?_, ?_⟩ <;>
      simp [compare_values, Delta.new, beqValue, allEqualB, to_value,
        equalFilter, deltaToSecond, deltaToFirst, pruneNulls, isNull]
  | hbool b =>
    intro _
    refine ⟨?_, ?_, ?_, ?_⟩ <;>
      simp [compare_values, Delta.new, beqValue, allEqualB, to_value,
        equalFilter, deltaToSecond, deltaToFirst, pruneNulls, isNull]
  | hnum n =>
    intro _
    refine ⟨?_, ?_, ?_, ?_⟩ <;>
      simp [compare_values, Delta.new, beqValue, allEqualB, to_value,
        equalFilter, deltaToSecond, deltaToFirst, pruneNulls, isNull]
  | hstr s =>
    intro _
    refine ⟨?_, ?_, ?_, ?_⟩ <;>
      simp [compare_values, Delta.new, beqValue, allEqualB, to_value,
        equalFilter, deltaToSecond, deltaToFirst, pruneNulls, isNull]
  | harr l ih =>
    intro hwf
    have hl : ∀ x ∈ l, WF x := by
      cases hwf with
      | arr _ h => exact h
    have ihs := fun x hx => ih x hx (hl x hx)
    rw [compare_self_arr]
    refine ⟨?_, ?_, ?_, ?_⟩
    · rw [allEqualB, allEqualList_eq, List.all_eq_true]
      intro d hd
      obtain ⟨x, hx, rfl⟩ := List.mem_map.mp hd
      exact (ihs x hx).1
    · rw [to_value_list rfl, pruneNulls]
      have key : ∀ xs : List Value, (∀ x ∈ xs,
            to_value (compare_values x x) equalFilter = pruneNulls x) →
          projList (xs.map (fun x => compare_values x x)) equalFilter =
            pruneList xs := by
        intro xs hxs
        induction xs with
        | nil => rw [List.map_nil, projList, pruneList]
        | cons x tail ihl =>
          rw [List.map_cons, projList, pruneList, hxs x (List.mem_cons_self _ _),
            ihl (fun y hy => hxs y (List.mem_cons_of_mem _ hy))]
      rw [key l (fun x hx => (ihs x hx).2.1)]
    · rw [to_value_list rfl, projList_all_null _ (fun d hd => ?_)]
      · rfl
      · obtain ⟨x, hx, rfl⟩ := List.mem_map.mp hd
        exact (ihs x hx).2.2.1
    · rw [to_value_list rfl, projList_all_null _ (fun d hd => ?_)]
      · rfl
      · obtain ⟨x, hx, rfl⟩ := List.mem_map.mp hd
        exact (ihs x hx).2.2.2
  | hobj m ih =>
    intro hwf
    obtain ⟨hpw, hm⟩ : m.Pairwise (fun p q => p.1 < q.1) ∧ ∀ p ∈ m, WF p.2 := by
      cases hwf with
      | obj _ h1 h2 => exact ⟨h1, h2⟩
    have hnd : m.Pairwise (fun p q => p.1 ≠ q.1) := hpw.imp (fun h => ne_of_lt h)
    have ihs := fun p hp => ih p hp (hm p hp)
    rw [compare_self_obj hnd]
    refine ⟨?_, ?_, ?_, ?_⟩
    · rw [allEqualB, allEqualMap_eq, List.all_eq_true]
      intro q hq
      obtain ⟨p, hp, rfl⟩ := List.mem_map.mp hq
      exact (ihs p hp).1
    · rw [to_value_map rfl, pruneNulls]
      have key : ∀ ms : List (String × Value), (∀ p ∈ ms,
            to_value (compare_values p.2 p.2) equalFilter = pruneNulls p.2) →
          projMap (ms.map (fun p => (p.1, compare_values p.2 p.2))) equalFilter =
            pruneObj ms := by
        intro ms hms
        induction ms with
        | nil => rw [List.map_nil, projMap, pruneObj]
        | cons p tail ihm =>
          obtain ⟨k, w⟩ := p
          have hw := hms (k, w) (List.mem_cons_self _ _)
          simp only at hw
          rw [List.map_cons, projMap, pruneObj, hw,
            ihm (fun q hq => hms q (List.mem_cons_of_mem _ hq))]
      rw [key m (fun p hp => (ihs p hp).2.1),
        sortByKey_sorted_id ((pruneObj_pairwise hpw).imp (fun h => le_of_lt h))]
    · rw [to_value_map rfl, projMap_all_null _ (fun q hq => ?_)]
      · rw [sortByKey]
        rfl
      · obtain ⟨p, hp, rfl⟩ := List.mem_map.mp hq
        exact (ihs p hp).2.2.1
    · rw [to_value_map rfl, projMap_all_null _ (fun q hq => ?_)]
      · rw [sortByKey]
        rfl
      · obtain ⟨p, hp, rfl⟩ := List.mem_map.mp hq
        exact (ihs p hp).2.2.2

/-- Witness for `reflexivity_pruned` at the document `[1]`. -/
theorem reflexivity_pruned_witness :
    allEqualB (compare_values (.Array [.Number 1]) (.Array [.Number 1])) = true ∧
    to_value (compare_values (.Array [.Number 1]) (.Array [.Number 1]))
      equalFilter = pruneNulls (.Array [.Number 1]) ∧
    to_value (compare_values (.Array [.Number 1]) (.Array [.Number 1]))
      deltaToSecond = Value.Null ∧
    to_value (compare_values (.Array [.Number 1]) (.Array [.Number 1]))
      deltaToFirst = Value.Null :=
  reflexivity_pruned (.Array [.Number 1])
    (WF.arr _ (fun v hv => by
      rcases List.mem_singleton.mp hv with rfl
      exact WF.num 1))

/-- Counterexample to C1 as stated: for `D = [null]` the equal-set
projection of `compare_values D D` is the document-level null, not D — the
null element is dropped and the emptied array collapses. -/
theorem reflexivity_cex :
    to_value (compare_values (.Array [.Null]) (.Array [.Null])) equalFilter
      = Value.Null ∧
    Value.Null ≠ Value.Array [Value.Null] := by
  constructor
  · simp [compare_values, cmpZip, to_value, projList, equalFilter, isNull]
  · simp

/-- The projector's list loop distributes over append. -/
theorem projList_append (f : Delta → Option Value) (l1 l2 : List Delta) :
    projList (l1 ++ l2) f = projList l1 f ++ projList l2 f := by
  induction l1 with
  | nil => rw [List.nil_append, projList, List.nil_append]
  | cons d rest ih =>
    rw [List.cons_append, projList, projList, ih]
    split <;> rfl

/-- The projector's map loop distributes over append. -/
theorem projMap_append (f : Delta → Option Value) (l1 l2 : List (String × Delta)) :
    projMap (l1 ++ l2) f = projMap l1 f ++ projMap l2 f := by
  induction l1 with
  | nil => rw [List.nil_append, projMap, List.nil_append]
  | cons p rest ih =>
    obtain ⟨k, d⟩ := p
    rw [List.cons_append, projMap, projMap, ih]
    split <;> rfl

/-- Surplus first-document elements project under the diff-to-second filter
to the bare non-null values. -/
theorem projList_mis_dts (xs : List Value) :
    projList (xs.map Delta.MissingInSecond) deltaToSecond =
      xs.filter (fun v => !isNull v) := by
  induction xs with
  | nil => rw [List.map_nil, projList]; rfl
  | cons x tail ih =>
    rw [List.map_cons, projList, to_value_some (show deltaToSecond
      (Delta.MissingInSecond x) = some x from rfl), ih, List.filter_cons]
    cases hx : isNull x <;> simp [hx]

/-- Surplus second-document elements project under the diff-to-first filter
to the bare non-null values. -/
theorem projList_mif_dtf (xs : List Value) :
    projList (xs.map Delta.MissingInFirst) deltaToFirst =
      xs.filter (fun v => !isNull v) := by
  induction xs with
  | nil => rw [List.map_nil, projList]; rfl
  | cons x tail ih =>
    rw [List.map_cons, projList, to_value_some (show deltaToFirst
      (Delta.MissingInFirst x) = some x from rfl), ih, List.filter_cons]
    cases hx : isNull x <;> simp [hx]

/-- The per-entry Delta produced by the first object loop. -/
def cmpOne (p : String × Value) (m : List (String × Value)) : Delta :=
  match lookupKey p.1 m with
  | some v2 => compare_values p.2 v2
  | none => .MissingInSecond p.2

/-- The first object loop as a map over the first map's entries. -/
theorem cmpEntries_eq_map (l m : List (String × Value)) :
    cmpEntries l m = l.map (fun p => (p.1, cmpOne p m)) := by
  induction l with
  | nil => rw [cmpEntries]; rfl
  | cons p rest ih =>
    obtain ⟨k, v⟩ := p
    rw [cmpEntries, ih, List.map_cons]
    congr 1
    split
    · rename_i v2 heq
      simp [cmpOne, heq]
    · rename_i heq
      simp [cmpOne, heq]

/-- Projecting a map built entrywise from document entries is a filterMap
keeping non-null projections with their keys. -/
theorem projMap_map (g : String × Value → Delta) (ms : List (String × Value))
    (f : Delta → Option Value) :
    projMap (ms.map (fun p => (p.1, g p))) f =
      ms.filterMap (fun p =>
        if isNull (to_value (g p) f) then none
        else some (p.1, to_value (g p) f)) := by
  induction ms with
  | nil => rw [List.map_nil, projMap]; rfl
  | cons p rest ih =>
    obtain ⟨k, v⟩ := p
    rw [List.map_cons, projMap, ih, List.filterMap_cons]
    cases hx : isNull (to_value (g (k, v)) f) <;> simp [hx]

/-- A key is contained in a map exactly when it is among the entry keys. -/
theorem containsKey_iff_mem_keys {k : String} {l : List (String × α)} :
    containsKey k l = true ↔ k ∈ l.map Prod.fst := by
  induction l with
  | nil => simp [containsKey, lookupKey]
  | cons p rest ih =>
    obtain ⟨k1, v⟩ := p
    by_cases hk : k = k1 <;> simp [containsKey, lookupKey, hk] at ih ⊢ <;>
      simpa [containsKey] using ih

/-- The keys kept by a key-preserving filterMap form a sublist of the
original keys. -/
theorem keys_filterMap_sublist {h : String × Value → Option (String × Value)}
    (hkey : ∀ p r, h p = some r → r.1 = p.1) (l : List (String × Value)) :
    ((l.filterMap h).map Prod.fst).Sublist (l.map Prod.fst) := by
  induction l with
  | nil => simp
  | cons p rest ih =>
    rw [List.filterMap_cons]
    cases hp : h p with
    | none => exact (List.map_cons _ _ _ ▸ ih.trans (List.sublist_cons_self _ _))
    | some r =>
      rw [List.map_cons, List.map_cons, hkey p r hp]
      exact ih.cons₂ _

/-- Sorted insertion is a permutation of prepending. -/
theorem sortedInsert_perm (p : String × α) (l : List (String × α)) :
    (sortedInsertByKey p l).Perm (p :: l) := by
  induction l with
  | nil => rw [sortedInsertByKey]
  | cons q rest ih =>
    rw [sortedInsertByKey]
    split
    · exact List.Perm.refl _
    · exact (ih.cons q).trans (List.Perm.swap p q rest)

/-- Key-sorting is a permutation. -/
theorem sortByKey_perm (l : List (String × α)) : (sortByKey l).Perm l := by
  induction l with
  | nil => rw [sortByKey]
  | cons p rest ih => exact (sortedInsert_perm p (sortByKey rest)).trans (ih.cons p)

/-- Sorted insertion preserves sortedness by key. -/
theorem sortedInsert_pairwise_le {l : List (String × α)} (p : String × α)
    (h : l.Pairwise (fun a b => a.1 ≤ b.1)) :
    (sortedInsertByKey p l).Pairwise (fun a b => a.1 ≤ b.1) := by
  induction l with
  | nil => rw [sortedInsertByKey]; exact List.pairwise_singleton _ _
  | cons q rest ih =>
    obtain ⟨hq, hrest⟩ := List.pairwise_cons.mp h
    rw [sortedInsertByKey]
    split
    · rename_i hle
      refine List.pairwise_cons.mpr ⟨?_, h⟩
      intro r hr
      rcases List.mem_cons.mp hr with rfl | hr2
      · exact hle
      · exact le_trans hle (hq r hr2)
    · rename_i hgt
      refine List.pairwise_cons.mpr ⟨?_, ih hrest⟩
      intro r hr
      rcases List.mem_cons.mp ((sortedInsert_perm p rest).mem_iff.mp hr) with rfl | hr2
      · exact le_of_not_le hgt
      · exact hq r hr2

/-- The output of key-sorting is sorted by key. -/
theorem sortByKey_sorted (l : List (String × α)) :
    (sortByKey l).Pairwise (fun a b => a.1 ≤ b.1) := by
  induction l with
  | nil => rw [sortByKey]; exact List.Pairwise.nil
  | cons p rest ih => rw [sortByKey]; exact sortedInsert_pairwise_le p ih

/-- Two permuted entry lists with duplicate-free keys key-sort to the same
list (the BTreeMap built from either HashMap iteration order is the same). -/
theorem sortByKey_eq_of_perm_nodup {l1 l2 : List (String × α)} (hp : l1.Perm l2)
    (hnd : (l1.map Prod.fst).Nodup) : sortByKey l1 = sortByKey l2 := by
  have hperm : (sortByKey l1).Perm (sortByKey l2) :=
    (sortByKey_perm l1).trans (hp.trans (sortByKey_perm l2).symm)
  have hnd1 : ((sortByKey l1).map Prod.fst).Nodup :=
    (((sortByKey_perm l1).map Prod.fst).nodup_iff).mpr hnd
  have hnd2 : ((sortByKey l2).map Prod.fst).Nodup :=
    ((hperm.map Prod.fst).nodup_iff).mp hnd1
  have hs1 : (sortByKey l1).Pairwise (fun a b => a.1 < b.1) :=
    ((sortByKey_sorted l1).and (List.pairwise_map.mp hnd1)).imp
      (fun h => lt_of_le_of_ne h.1 h.2)
  have hs2 : (sortByKey l2).Pairwise (fun a b => a.1 < b.1) :=
    ((sortByKey_sorted l2).and (List.pairwise_map.mp hnd2)).imp
      (fun h => lt_of_le_of_ne h.1 h.2)
  have hanti : ∀ a b : String × α,
      (a.1 < b.1 ∨ a = b) → (b.1 < a.1 ∨ b = a) → a = b := by
    intro a b hab hba
    rcases hab with h1 | rfl
    · rcases hba with h2 | h2
      · exact absurd h2 (lt_asymm h1)
      · exact h2.symm
    · rfl
  have hs1s : List.Sorted (fun a b : String × α => a.1 < b.1 ∨ a = b) (sortByKey l1) :=
    hs1.imp (fun h => Or.inl h)
  have hs2s : List.Sorted (fun a b : String × α => a.1 < b.1 ∨ a = b) (sortByKey l2) :=
    hs2.imp (fun h => Or.inl h)
  exact @List.eq_of_perm_of_sorted _ (fun a b => a.1 < b.1 ∨ a = b) ⟨hanti⟩ _ _
    hperm hs1s hs2s

/-- A successful lookup exhibits a member entry. -/
theorem lookupKey_mem {k : String} {l : List (String × α)} {v : α}
    (h : lookupKey k l = some v) : (k, v) ∈ l := by
  induction l with
  | nil => simp [lookupKey] at h
  | cons p rest ih =>
    obtain ⟨k1, w⟩ := p
    rw [lookupKey] at h
    split at h
    · rename_i hk
      cases Option.some.inj h
      subst hk
      exact List.mem_cons_self _ _
    · exact List.mem_cons_of_mem _ (ih h)

/-- Keep a projected entry unless its value is null (the drop policy of the
projector's map loop). -/
def keepEntry (k : String) (w : Value) : Option (String × Value) :=
  if isNull w then none else some (k, w)

/-- The diff-to-second entry a key shared by both maps contributes, as a
function of the key alone (given the two source maps). -/
def diffPairView (m1 m2 : List (String × Value)) (k : String) :
    Option (String × Value) :=
  match lookupKey k m1, lookupKey k m2 with
  | some v1, some v2 => keepEntry k (to_value (compare_values v1 v2) deltaToSecond)
  | _, _ => none

/-- `projMap_map` phrased with `keepEntry`. -/
theorem projMap_map_keep (g : String × Value → Delta) (ms : List (String × Value))
    (f : Delta → Option Value) :
    projMap (ms.map (fun p => (p.1, g p))) f =
      ms.filterMap (fun p => keepEntry p.1 (to_value (g p) f)) := by
  rw [projMap_map]
  simp only [keepEntry]

/-- `keepEntry` preserves the key. -/
theorem keepEntry_key {k : String} {w : Value} {r : String × Value}
    (h : keepEntry k w = some r) : r.1 = k := by
  rw [keepEntry] at h
  split at h
  · cases h
  · cases Option.some.inj h
    rfl

/-- A key that is not contained looks up to nothing. -/
theorem lookupKey_eq_none_of_not_contains {k : String} {l : List (String × α)}
    (h : containsKey k l = false) : lookupKey k l = none := by
  rw [containsKey] at h
  cases hopt : lookupKey k l with
  | none => rfl
  | some v => rw [hopt] at h; simp at h

/-- C6 (amended): antisymmetry of the diff views.  For all well-formed
documents A and B, the diff-to-second projection of `compare_values A B`
equals the diff-to-first projection of `compare_values B A` exactly — with
no further element swap, because the diff-to-first filter already emits each
differing pair reversed as `[v2, v1]`. -/
theorem diff_views_antisymm : ∀ A : Value, WF A → ∀ B : Value, WF B →
    to_value (compare_values A B) deltaToSecond =
      to_value (compare_values B A) deltaToFirst := by
  intro A
  induction A using Value.inductionOn with
  | hnull =>
    intro _ B _
    cases B <;>
      simp [compare_values, Delta.new, beqValue, to_value, deltaToSecond, deltaToFirst]
  | hbool b1 =>
    intro _ B _
    cases B with
    | Bool b2 =>
      rcases eq_or_ne b1 b2 with rfl | hne
      · simp [compare_values, Delta.new, beqValue, to_value, deltaToSecond, deltaToFirst]
      · simp [compare_values, Delta.new, beqValue, to_value, deltaToSecond,
          deltaToFirst, hne, hne.symm]
    | _ =>
      simp [compare_values, to_value, deltaToSecond, deltaToFirst]
  | hnum n1 =>
    intro _ B _
    cases B with
    | Number n2 =>
      rcases eq_or_ne n1 n2 with rfl | hne
      · simp [compare_values, Delta.new, beqValue, to_value, deltaToSecond, deltaToFirst]
      · simp [compare_values, Delta.new, beqValue, to_value, deltaToSecond,
          deltaToFirst, hne, hne.symm]
    | _ =>
      simp [compare_values, to_value, deltaToSecond, deltaToFirst]
  | hstr s1 =>
    intro _ B _
    cases B with
    | String s2 =>
      rcases eq_or_ne s1 s2 with rfl | hne
      · simp [compare_values, Delta.new, beqValue, to_value, deltaToSecond, deltaToFirst]
      · simp [compare_values, Delta.new, beqValue, to_value, deltaToSecond,
          deltaToFirst, hne, hne.symm]
    | _ =>
      simp [compare_values, to_value, deltaToSecond, deltaToFirst]
  | harr l1 ih =>
    intro hA B hB
    cases B with
    | Array l2 =>
      have hl1 : ∀ x ∈ l1, WF x := by
        cases hA with
        | arr _ h => exact h
      have hl2 : ∀ y ∈ l2, WF y := by
        cases hB with
        | arr _ h => exact h
      rw [compare_values, compare_values, to_value_list rfl, to_value_list rfl]
      have hzip : ∀ xs : List Value,
          (∀ x ∈ xs, WF x → ∀ C, WF C →
            to_value (compare_values x C) deltaToSecond =
              to_value (compare_values C x) deltaToFirst) →
          (∀ x ∈ xs, WF x) → ∀ ys : List Value, (∀ y ∈ ys, WF y) →
          projList (cmpZip xs ys) deltaToSecond =
            projList (cmpZip ys xs) deltaToFirst := by
        intro xs
        induction xs with
        | nil =>
          intro _ _ ys _
          cases ys <;> simp [cmpZip, projList]
        | cons x tail ihx =>
          intro hih hxs ys hys
          cases ys with
          | nil => simp [cmpZip, projList]
          | cons y ytail =>
            rw [cmpZip, cmpZip, projList, projList,
              hih x (List.mem_cons_self _ _) (hxs x (List.mem_cons_self _ _))
                y (hys y (List.mem_cons_self _ _)),
              ihx (fun q hq => hih q (List.mem_cons_of_mem _ hq))
                (fun q hq => hxs q (List.mem_cons_of_mem _ hq))
                ytail (fun q hq => hys q (List.mem_cons_of_mem _ hq))]
      have hextra :
          projList (if l2.length < l1.length then
              (l1.drop l2.length).map Delta.MissingInSecond
            else (l2.drop l1.length).map Delta.MissingInFirst) deltaToSecond =
          projList (if l1.length < l2.length then
              (l2.drop l1.length).map Delta.MissingInSecond
            else (l1.drop l2.length).map Delta.MissingInFirst) deltaToFirst := by
        by_cases h12 : l2.length < l1.length
        · rw [if_pos h12, if_neg (by omega : ¬ l1.length < l2.length),
            projList_mis_dts, projList_mif_dtf]
        · by_cases h21 : l1.length < l2.length
          · rw [if_neg h12, if_pos h21]
            have e1 : projList ((l2.drop l1.length).map Delta.MissingInFirst)
                deltaToSecond = [] :=
              projList_all_null _ (fun d hd => by
                obtain ⟨v, hv, rfl⟩ := List.mem_map.mp hd
                exact to_value_leaf rfl rfl)
            have e2 : projList ((l2.drop l1.length).map Delta.MissingInSecond)
                deltaToFirst = [] :=
              projList_all_null _ (fun d hd => by
                obtain ⟨v, hv, rfl⟩ := List.mem_map.mp hd
                exact to_value_leaf rfl rfl)
            rw [e1, e2]
          · rw [if_neg h12, if_neg h21,
              List.drop_eq_nil_of_le (by omega : l1.length ≤ l2.length),
              List.drop_eq_nil_of_le (by omega : l2.length ≤ l1.length)]
            simp [projList]
      rw [projList_append, projList_append, hzip l1 ih hl1 l2 hl2, hextra]
    | _ =>
      simp [compare_values, to_value, deltaToSecond, deltaToFirst]
  | hobj m1 ih =>
    intro hA B hB
    cases B with
    | Object m2 =>
      have hsp1 : m1.Pairwise (fun p q => p.1 < q.1) ∧ ∀ p ∈ m1, WF p.2 := by
        cases hA with
        | obj _ h1 h2 => exact ⟨h1, h2⟩
      obtain ⟨hpw1, hwf1⟩ := hsp1
      have hsp2 : m2.Pairwise (fun p q => p.1 < q.1) ∧ ∀ p ∈ m2, WF p.2 := by
        cases hB with
        | obj _ h1 h2 => exact ⟨h1, h2⟩
      obtain ⟨hpw2, hwf2⟩ := hsp2
      have hnd1 : m1.Pairwise (fun p q => p.1 ≠ q.1) := hpw1.imp (fun h => ne_of_lt h)
      have hnd2 : m2.Pairwise (fun p q => p.1 ≠ q.1) := hpw2.imp (fun h => ne_of_lt h)
      have hndk1 : (m1.map Prod.fst).Nodup := List.pairwise_map.mpr hnd1
      have hndk2 : (m2.map Prod.fst).Nodup := List.pairwise_map.mpr hnd2
      rw [compare_values, compare_values, to_value_map rfl, to_value_map rfl]
      suffices hs : sortByKey (projMap (cmpEntries m1 m2 ++
            (m2.filter (fun p => !containsKey p.1 m1)).map
              (fun p => (p.1, Delta.MissingInFirst p.2))) deltaToSecond) =
          sortByKey (projMap (cmpEntries m2 m1 ++
            (m1.filter (fun p => !containsKey p.1 m2)).map
              (fun p => (p.1, Delta.MissingInFirst p.2))) deltaToFirst) by
        rw [hs]
      have hK1 : projMap (cmpEntries m1 m2 ++
          (m2.filter (fun p => !containsKey p.1 m1)).map
            (fun p => (p.1, Delta.MissingInFirst p.2))) deltaToSecond =
          m1.filterMap (fun p => keepEntry p.1 (to_value (cmpOne p m2) deltaToSecond)) := by
        rw [projMap_append, cmpEntries_eq_map, projMap_map_keep]
        have hz : projMap ((m2.filter (fun p => !containsKey p.1 m1)).map
            (fun p => (p.1, Delta.MissingInFirst p.2))) deltaToSecond = [] := by
          apply projMap_all_null
          intro p hp
          obtain ⟨q, hq, rfl⟩ := List.mem_map.mp hp
          exact to_value_leaf rfl rfl
        rw [hz, List.append_nil]
      have hK2 : projMap (cmpEntries m2 m1 ++
          (m1.filter (fun p => !containsKey p.1 m2)).map
            (fun p => (p.1, Delta.MissingInFirst p.2))) deltaToFirst =
          m2.filterMap (fun p => keepEntry p.1 (to_value (cmpOne p m1) deltaToFirst)) ++
          (m1.filter (fun p => !containsKey p.1 m2)).filterMap
            (fun p => keepEntry p.1 p.2) := by
        rw [projMap_append, cmpEntries_eq_map, projMap_map_keep, projMap_map_keep]
        congr 1
        apply List.filterMap_congr
        intro p hp
        rw [to_value_some (show deltaToFirst (Delta.MissingInFirst p.2) = some p.2 from rfl)]
      have hperm1 : (m1.filterMap
            (fun p => keepEntry p.1 (to_value (cmpOne p m2) deltaToSecond))).Perm
          ((m1.filter (fun p => containsKey p.1 m2)).filterMap
            (fun p => keepEntry p.1 (to_value (cmpOne p m2) deltaToSecond)) ++
           (m1.filter (fun p => !containsKey p.1 m2)).filterMap
            (fun p => keepEntry p.1 p.2)) := by
        have hfa := List.filter_append_perm (fun p => containsKey p.1 m2) m1
        have h1 := List.Perm.filterMap
          (fun p => keepEntry p.1 (to_value (cmpOne p m2) deltaToSecond)) hfa.symm
        rw [List.filterMap_append] at h1
        have heq : (m1.filter (fun p => !containsKey p.1 m2)).filterMap
            (fun p => keepEntry p.1 (to_value (cmpOne p m2) deltaToSecond)) =
            (m1.filter (fun p => !containsKey p.1 m2)).filterMap
            (fun p => keepEntry p.1 p.2) := by
          apply List.filterMap_congr
          intro p hp
          have hc : containsKey p.1 m2 = false := by
            simpa using (List.mem_filter.mp hp).2
          have hlk := lookupKey_eq_none_of_not_contains hc
          simp only [cmpOne, hlk]
          rw [to_value_some (show deltaToSecond (Delta.MissingInSecond p.2) =
            some p.2 from rfl)]
        rw [heq] at h1
        exact h1
      have hperm2 : (m2.filterMap
            (fun p => keepEntry p.1 (to_value (cmpOne p m1) deltaToFirst))).Perm
          ((m2.filter (fun p => containsKey p.1 m1)).filterMap
            (fun p => keepEntry p.1 (to_value (cmpOne p m1) deltaToFirst))) := by
        have hfa := List.filter_append_perm (fun p => containsKey p.1 m1) m2
        have h1 := List.Perm.filterMap
          (fun p => keepEntry p.1 (to_value (cmpOne p m1) deltaToFirst)) hfa.symm
        rw [List.filterMap_append] at h1
        have hz2 : (m2.filter (fun p => !containsKey p.1 m1)).filterMap
            (fun p => keepEntry p.1 (to_value (cmpOne p m1) deltaToFirst)) = [] := by
          rw [List.filterMap_eq_nil_iff]
          intro p hp
          have hc : containsKey p.1 m1 = false := by
            simpa using (List.mem_filter.mp hp).2
          have hlk := lookupKey_eq_none_of_not_contains hc
          simp only [cmpOne, hlk]
          rw [to_value_leaf (show deltaToFirst (Delta.MissingInSecond p.2) = none from rfl)
            (show isLeafKind (Delta.MissingInSecond p.2) = true from rfl)]
          rfl
        rw [hz2, List.append_nil] at h1
        exact h1
      have hX1W : (m1.filter (fun p => containsKey p.1 m2)).filterMap
          (fun p => keepEntry p.1 (to_value (cmpOne p m2) deltaToSecond)) =
          ((m1.filter (fun p => containsKey p.1 m2)).map Prod.fst).filterMap
            (diffPairView m1 m2) := by
        rw [List.filterMap_map]
        apply List.filterMap_congr
        intro p hp
        obtain ⟨hpm, hpc⟩ := List.mem_filter.mp hp
        have hlk1 : lookupKey p.1 m1 = some p.2 := lookupKey_self hnd1 p hpm
        obtain ⟨v2, hlk2⟩ : ∃ v2, lookupKey p.1 m2 = some v2 := by
          rw [containsKey] at hpc
          exact Option.isSome_iff_exists.mp hpc
        simp only [Function.comp, diffPairView, hlk1, hlk2, cmpOne]
      have hX2W : (m2.filter (fun p => containsKey p.1 m1)).filterMap
          (fun p => keepEntry p.1 (to_value (cmpOne p m1) deltaToFirst)) =
          ((m2.filter (fun p => containsKey p.1 m1)).map Prod.fst).filterMap
            (diffPairView m1 m2) := by
        rw [List.filterMap_map]
        apply List.filterMap_congr
        intro p hp
        obtain ⟨hpm, hpc⟩ := List.mem_filter.mp hp
        have hlk2 : lookupKey p.1 m2 = some p.2 := lookupKey_self hnd2 p hpm
        obtain ⟨v1, hlk1⟩ : ∃ v1, lookupKey p.1 m1 = some v1 := by
          rw [containsKey] at hpc
          exact Option.isSome_iff_exists.mp hpc
        have hIH : to_value (compare_values v1 p.2) deltaToSecond =
            to_value (compare_values p.2 v1) deltaToFirst :=
          ih (p.1, v1) (lookupKey_mem hlk1) (hwf1 (p.1, v1) (lookupKey_mem hlk1))
            p.2 (hwf2 p hpm)
        simp only [Function.comp, diffPairView, hlk1, hlk2, cmpOne, hIH]
      have hkeysnd1 : ((m1.filter (fun p => containsKey p.1 m2)).map Prod.fst).Nodup :=
        List.Nodup.sublist ((List.filter_sublist m1).map Prod.fst) hndk1
      have hkeysnd2 : ((m2.filter (fun p => containsKey p.1 m1)).map Prod.fst).Nodup :=
        List.Nodup.sublist ((List.filter_sublist m2).map Prod.fst) hndk2
      have hmemiff : ∀ k, k ∈ (m1.filter (fun p => containsKey p.1 m2)).map Prod.fst ↔
          k ∈ (m2.filter (fun p => containsKey p.1 m1)).map Prod.fst := by
        intro k
        simp only [List.mem_map, List.mem_filter]
        constructor
        · rintro ⟨p, ⟨hpm, hpc⟩, rfl⟩
          obtain ⟨v2, hlk2⟩ := Option.isSome_iff_exists.mp
            (by rwa [containsKey] at hpc)
          refine ⟨(p.1, v2), ⟨lookupKey_mem hlk2, ?_⟩, rfl⟩
          simpa using containsKey_of_mem hpm
        · rintro ⟨p, ⟨hpm, hpc⟩, rfl⟩
          obtain ⟨v1, hlk1⟩ := Option.isSome_iff_exists.mp
            (by rwa [containsKey] at hpc)
          refine ⟨(p.1, v1), ⟨lookupKey_mem hlk1, ?_⟩, rfl⟩
          simpa using containsKey_of_mem hpm
      have hkeysperm := (List.perm_ext_iff_of_nodup hkeysnd1 hkeysnd2).mpr hmemiff
      have hXperm : ((m1.filter (fun p => containsKey p.1 m2)).filterMap
            (fun p => keepEntry p.1 (to_value (cmpOne p m2) deltaToSecond))).Perm
          ((m2.filter (fun p => containsKey p.1 m1)).filterMap
            (fun p => keepEntry p.1 (to_value (cmpOne p m1) deltaToFirst))) := by
        rw [hX1W, hX2W]
        exact hkeysperm.filterMap _
      rw [hK1, hK2]
      apply sortByKey_eq_of_perm_nodup
      · exact hperm1.trans ((hXperm.append_right _).trans
          ((hperm2.symm).append_right _))
      · exact List.Nodup.sublist
          (keys_filterMap_sublist (fun p r h => keepEntry_key h) m1) hndk1
    | _ =>
      simp [compare_values, to_value, deltaToSecond, deltaToFirst]

/-- Witness for `diff_views_antisymm` at the documents 1 and 2. -/
theorem diff_views_antisymm_witness :
    to_value (compare_values (.Number 1) (.Number 2)) deltaToSecond =
      to_value (compare_values (.Number 2) (.Number 1)) deltaToFirst :=
  diff_views_antisymm (.Number 1) (WF.num 1) (.Number 2) (WF.num 2)

/-- Counterexample to C6 as stated: for A = 1, B = 2 both projections are
the single pair `[1,2]`, so applying the claimed additional element swap to
the diff-to-first projection of `compare_values B A` yields `[2,1]`, which
differs from the diff-to-second projection of `compare_values A B`. -/
theorem diff_views_antisymm_cex :
    to_value (compare_values (.Number 1) (.Number 2)) deltaToSecond =
      .Array [.Number 1, .Number 2] ∧
    to_value (compare_values (.Number 2) (.Number 1)) deltaToFirst =
      .Array [.Number 1, .Number 2] ∧
    to_value (compare_values (.Number 1) (.Number 2)) deltaToSecond ≠
      swapTopPair (to_value (compare_values (.Number 2) (.Number 1)) deltaToFirst) := by
  refine ⟨?_, ?_, ?_⟩ <;>
    simp [compare_values, Delta.new, beqValue, to_value, deltaToSecond,
      deltaToFirst, swapTopPair]
